import Mathlib

/-!
Shallow embedding of the MFixedPoint repository (C++), covering:

* `src/include/MFixedPoint/FpS.hpp` — the compile-time-fixed-scale template
  `FpS<BaseType, OverflowType, numFracBits_>` with its constructors, compound
  and binary arithmetic operators, comparison operators and conversions, and
  the two named instantiations `fp16 = FpS<int16_t,int32_t,8>` and
  `fp32 = FpS<int32_t,int64_t,16>`.
* `src/src/include/FixedPoint-Fp32s.hpp` — the per-instance-scale variant
  `Fp32s` with public fields `rawVal` (int32_t) and `q` (uint8_t).

Machine integers are modelled as `ℤ` together with explicit two's-complement
wrapping into the signed range of a `w`-bit type (`wrap`), mirroring the
storage conversions of the C++ code.  `BaseType`/`OverflowType` are modelled
by their bit widths `w`/`ow`.  C++ `double` arguments are modelled as exact
rationals (`ℚ`); where a concrete `double` literal matters, the exact IEEE-754
binary64 value of that literal is used.
-/

namespace MFixedPoint

/-- Two's-complement reduction of an integer into the signed range
`[-2^(w-1), 2^(w-1))` of a `w`-bit integer type.  This models the value
change of a (possibly narrowing) conversion to a `w`-bit signed type, and of
wrapping overflow of `w`-bit signed arithmetic. -/
def wrap (w : ℕ) (x : ℤ) : ℤ :=
  (x + 2 ^ (w - 1)) % 2 ^ w - 2 ^ (w - 1)

/-- Truncation of a rational toward zero, modelling the C++ cast from
`double` to an integer type (before any storage wrap): nonnegative values
are rounded down, negative values are rounded up. -/
def ratTruncToZero (q : ℚ) : ℤ :=
  if 0 ≤ q then ⌊q⌋ else ⌈q⌉

/-- Model of the C++ class template
`FpS<BaseType, OverflowType, numFracBits_>` from `FpS.hpp`.
`w` is the bit width of `BaseType`, `ow` the bit width of `OverflowType`,
`f` the number of fractional bits (`numFracBits_`).  The single data member
`rawVal_` is a `BaseType`, so its value always lies in the signed `w`-bit
range; that range fact is carried as part of the value. -/
structure FpS (w ow f : ℕ) where
  rawVal : ℤ
  range_lo : -2 ^ (w - 1) ≤ rawVal
  range_hi : rawVal < 2 ^ (w - 1)

namespace FpS

variable {w ow f : ℕ}

theorem two_pow_le_two_mul_two_pow (w : ℕ) :
    (2 : ℤ) ^ w ≤ 2 * 2 ^ (w - 1) := by
  cases w with
  | zero => norm_num
  | succ n =>
    rw [Nat.succ_sub_one, pow_succ]
    omega

theorem wrap_lo (w : ℕ) (x : ℤ) : -2 ^ (w - 1) ≤ wrap w x := by
  unfold wrap
  have h := Int.emod_nonneg (x + 2 ^ (w - 1))
    (b := 2 ^ w) (by positivity)
  omega

theorem wrap_hi (w : ℕ) (x : ℤ) : wrap w x < 2 ^ (w - 1) := by
  unfold wrap
  have h := Int.emod_lt_of_pos (x + 2 ^ (w - 1)) (b := 2 ^ w) (by positivity)
  have h2 := two_pow_le_two_mul_two_pow w
  omega

/-- `wrap` is the identity on integers already in the `w`-bit signed range
(for a type of at least one bit). -/
theorem wrap_eq_self (hw : 0 < w) {x : ℤ}
    (h1 : -2 ^ (w - 1) ≤ x) (h2 : x < 2 ^ (w - 1)) : wrap w x = x := by
  unfold wrap
  have hpow : (2 : ℤ) ^ w = 2 * 2 ^ (w - 1) := by
    conv_lhs => rw [show w = (w - 1) + 1 by omega]
    rw [pow_succ]
    ring
  rw [Int.emod_eq_of_lt (by omega) (by omega)]
  omega

/-- The wrapped value differs from the original by a multiple of `2^w`. -/
theorem dvd_wrap_sub (w : ℕ) (x : ℤ) : (2 : ℤ) ^ w ∣ wrap w x - x := by
  unfold wrap
  have h := Int.emod_def (x + 2 ^ (w - 1)) (2 ^ w)
  refine ⟨-((x + 2 ^ (w - 1)) / 2 ^ w), ?_⟩
  rw [h]
  ring

/-- Integers congruent modulo `2^w` wrap to the same value. -/
theorem wrap_congr {x y : ℤ} (h : (2 : ℤ) ^ w ∣ x - y) :
    wrap w x = wrap w y := by
  unfold wrap
  have h1 : x ≡ y [ZMOD (2 : ℤ) ^ w] := (Int.modEq_iff_dvd.mpr h).symm
  have h2 : (x + 2 ^ (w - 1)) % 2 ^ w = (y + 2 ^ (w - 1)) % 2 ^ w :=
    h1.add_right (2 ^ (w - 1))
  omega

/-- Wrapping at a narrow width absorbs an earlier wrap at a wider width. -/
theorem wrap_wrap (h : w ≤ ow) (x : ℤ) : wrap w (wrap ow x) = wrap w x := by
  apply wrap_congr
  exact dvd_trans (pow_dvd_pow 2 h) (dvd_wrap_sub ow x)

/-- Core `Int.shiftRight` (the model of C++ `>>` on a signed integer) is
floor division by the corresponding power of two. -/
theorem shiftRight_eq_fdiv (x : ℤ) (n : ℕ) :
    Int.shiftRight x n = Int.fdiv x (2 ^ n) := by
  have hpos : (0 : ℤ) < 2 ^ n := by positivity
  rw [Int.fdiv_eq_ediv _ (le_of_lt hpos)]
  cases x with
  | ofNat m =>
    show ((m >>> n : ℕ) : ℤ) = (m : ℤ) / 2 ^ n
    rw [Nat.shiftRight_eq_div_pow]
    push_cast [Int.ofNat_ediv]
    norm_num
  | negSucc m =>
    show Int.negSucc (m >>> n) = Int.negSucc m / 2 ^ n
    rw [Int.negSucc_ediv m hpos, Nat.shiftRight_eq_div_pow, Int.negSucc_eq]
    push_cast [Int.ofNat_ediv]
    norm_num
    rfl

/-- Two FpS values with the same raw value are equal. -/
theorem ext {a b : FpS w ow f} (h : a.rawVal = b.rawVal) : a = b := by
  cases a
  cases b
  subst h
  rfl

/-- Constructor `FpS(int32_t integer)`: `rawVal_ = integer << numFracBits_`.
The shift is evaluated in the 32-bit argument type and the result is stored
into the `w`-bit `BaseType` member. -/
def ofInt (i : ℤ) : FpS w ow f :=
  ⟨wrap w (wrap 32 (i * 2 ^ f)), wrap_lo w _, wrap_hi w _⟩

/-- Constructor `FpS(double dbl)`:
`rawVal_ = (BaseType)(dbl * ((BaseType)1 << numFracBits_))`.  The `double`
argument is modelled as an exact rational; the cast from `double` to the
integer `BaseType` truncates toward zero, and the result is stored into the
`w`-bit member. -/
def ofRat (d : ℚ) : FpS w ow f :=
  ⟨wrap w (ratTruncToZero (d * 2 ^ f)), wrap_lo w _, wrap_hi w _⟩

/-- `ToInt<IntType>()`: `(IntType)(rawVal_ >> numFracBits_)`, an arithmetic
right shift of the raw value.  The result is returned as a mathematical
integer (an `IntType` wide enough not to truncate). -/
def toInt (a : FpS w ow f) : ℤ :=
  Int.shiftRight a.rawVal f

/-- The represented rational value `rawVal_ / 2^numFracBits_`.  `ToDouble()`
computes exactly this quotient in floating point. -/
def value (a : FpS w ow f) : ℚ :=
  (a.rawVal : ℚ) / 2 ^ f

/-- `operator+=`: `rawVal_ = rawVal_ + r.rawVal_`, computed and stored in
`BaseType` (wrapping on overflow).  Binary `operator+` copies the left
operand and applies `+=`, so it denotes the same function on values. -/
def add (a b : FpS w ow f) : FpS w ow f :=
  ⟨wrap w (a.rawVal + b.rawVal), wrap_lo w _, wrap_hi w _⟩

/-- `operator-=`: `rawVal_ = rawVal_ - r.rawVal_`, computed and stored in
`BaseType` (wrapping on overflow).  Binary `operator-` copies the left
operand and applies `-=`. -/
def sub (a b : FpS w ow f) : FpS w ow f :=
  ⟨wrap w (a.rawVal - b.rawVal), wrap_lo w _, wrap_hi w _⟩

/-- Unary `operator-`: `return FpS(-rawVal_);` — note that this invokes the
integer constructor `FpS(int32_t)`, which shifts its argument left by
`numFracBits_` again. -/
def neg (a : FpS w ow f) : FpS w ow f :=
  ofInt (-a.rawVal)

/-- `operator*=`:
`rawVal_ = (BaseType)(((OverflowType)rawVal_ * (OverflowType)r.rawVal_) >> numFracBits_)`.
The product is formed in the `ow`-bit `OverflowType` (wrapping there),
arithmetically right-shifted by `f`, then stored into `BaseType`.  Binary
`operator*` copies the left operand and applies `*=`. -/
def mul (a b : FpS w ow f) : FpS w ow f :=
  ⟨wrap w (Int.shiftRight (wrap ow (a.rawVal * b.rawVal)) f),
    wrap_lo w _, wrap_hi w _⟩

/-- `operator/=`:
`rawVal_ = (BaseType)(((OverflowType)rawVal_ << numFracBits_) / (OverflowType)r.rawVal_)`.
The dividend is shifted left by `f` in the `ow`-bit `OverflowType`
(wrapping there); C++ integer division truncates toward zero (`Int.tdiv`).
Binary `operator/` copies the left operand and applies `/=`. -/
def div (a b : FpS w ow f) : FpS w ow f :=
  ⟨wrap w (Int.tdiv (wrap ow (a.rawVal * 2 ^ f)) b.rawVal),
    wrap_lo w _, wrap_hi w _⟩

/-- `operator%=`: `rawVal_ = rawVal_ % r.rawVal_`; C++ `%` is the
truncation-based remainder (`Int.tmod`). -/
def mod (a b : FpS w ow f) : FpS w ow f :=
  ⟨wrap w (Int.tmod a.rawVal b.rawVal), wrap_lo w _, wrap_hi w _⟩

/-- `operator==`: `rawVal_ == r.rawVal_`. -/
def beq (a b : FpS w ow f) : Bool :=
  a.rawVal == b.rawVal

/-- `operator!=`: `rawVal_ != r.rawVal_`. -/
def bne (a b : FpS w ow f) : Bool :=
  a.rawVal != b.rawVal

/-- `operator<`: `rawVal_ < r.rawVal_`. -/
def blt (a b : FpS w ow f) : Bool :=
  decide (a.rawVal < b.rawVal)

/-- `operator>`: `rawVal_ > r.rawVal_`. -/
def bgt (a b : FpS w ow f) : Bool :=
  decide (b.rawVal < a.rawVal)

/-- `operator<=`: `rawVal_ <= r.rawVal_`. -/
def ble (a b : FpS w ow f) : Bool :=
  decide (a.rawVal ≤ b.rawVal)

/-- `operator>=`: `rawVal_ >= r.rawVal_`. -/
def bge (a b : FpS w ow f) : Bool :=
  decide (b.rawVal ≤ a.rawVal)

end FpS

/-- `typedef FpS<int16_t, int32_t, 8> fp16;` -/
abbrev fp16 := FpS 16 32 8

/-- `typedef FpS<int32_t, int64_t, 16> fp32;` -/
abbrev fp32 := FpS 32 64 16

/-- The exact IEEE-754 binary64 value of the C++ literal `66.3`,
namely `4665447738979123 × 2⁻⁴⁶`. -/
def double66p3 : ℚ :=
  4665447738979123 / 2 ^ 46

/-- Model of class `Fp32s` from `FixedPoint-Fp32s.hpp`: public data members
`int32_t rawVal` and `uint8_t q` (the per-instance fractional-bit count).
`rawVal` is modelled as `ℤ` (writes are wrapped to 32 bits), `q` as `ℕ`. -/
structure Fp32s where
  rawVal : ℤ
  q : ℕ

/-- The default constructor `Fp32s()` has an empty body (only a
conditionally-compiled debug print): it assigns neither `rawVal` nor `q`.
It is modelled as a function of the indeterminate pre-existing contents of
the object's storage, which it leaves untouched. -/
def Fp32s.defaultCtor (mem : Fp32s) : Fp32s :=
  mem

/-- Constructor `Fp32s(int32_t i, uint8_t qin)`: `rawVal = i << qin; q = qin`. -/
def Fp32s.ofInt (i : ℤ) (qin : ℕ) : Fp32s :=
  ⟨wrap 32 (i * 2 ^ qin), qin⟩

/-- `Fp32s::operator+=`: the body acts only under `if (q > r.q)`; in that
branch it sets `rawVal = (rawVal > (q - r.q)) + r.rawVal` (a boolean
comparison whose 0/1 result is added to `r.rawVal`) and `q = q - r.q`;
otherwise it does nothing, and in all cases it returns `*this`. -/
def Fp32s.addAssign (l r : Fp32s) : Fp32s :=
  if r.q < l.q then
    { rawVal := wrap 32
        ((if (l.q : ℤ) - (r.q : ℤ) < l.rawVal then 1 else 0) + r.rawVal),
      q := l.q - r.q }
  else l

/-! Evaluation of the double constructor at the literal `66.3` for each of
the two named instantiations. -/

theorem ofRat_fp16_66p3 : (FpS.ofRat double66p3 : fp16).rawVal = 16972 := by
  show wrap 16 (ratTruncToZero (double66p3 * 2 ^ 8)) = 16972
  have h1 : double66p3 * 2 ^ 8 = (4665447738979123 : ℚ) / 2 ^ 38 := by
    norm_num [double66p3]
  rw [h1, ratTruncToZero, if_pos (by positivity)]
  have h2 : ⌊(4665447738979123 : ℚ) / 2 ^ 38⌋ = 16972 := by norm_num
  rw [h2]
  decide

theorem ofRat_fp16_neg66p3 :
    (FpS.ofRat (-double66p3) : fp16).rawVal = -16972 := by
  show wrap 16 (ratTruncToZero (-double66p3 * 2 ^ 8)) = -16972
  have h1 : -double66p3 * 2 ^ 8 = -((4665447738979123 : ℚ) / 2 ^ 38) := by
    norm_num [double66p3]
  rw [h1, ratTruncToZero, if_neg (by norm_num), Int.ceil_neg]
  have h2 : ⌊(4665447738979123 : ℚ) / 2 ^ 38⌋ = 16972 := by norm_num
  rw [h2]
  decide

theorem ofRat_fp32_66p3 : (FpS.ofRat double66p3 : fp32).rawVal = 4345036 := by
  show wrap 32 (ratTruncToZero (double66p3 * 2 ^ 16)) = 4345036
  have h1 : double66p3 * 2 ^ 16 = (4665447738979123 : ℚ) / 2 ^ 30 := by
    norm_num [double66p3]
  rw [h1, ratTruncToZero, if_pos (by positivity)]
  have h2 : ⌊(4665447738979123 : ℚ) / 2 ^ 30⌋ = 4345036 := by norm_num
  rw [h2]
  decide

theorem ofRat_fp32_neg66p3 :
    (FpS.ofRat (-double66p3) : fp32).rawVal = -4345036 := by
  show wrap 32 (ratTruncToZero (-double66p3 * 2 ^ 16)) = -4345036
  have h1 : -double66p3 * 2 ^ 16 = -((4665447738979123 : ℚ) / 2 ^ 30) := by
    norm_num [double66p3]
  rw [h1, ratTruncToZero, if_neg (by norm_num), Int.ceil_neg]
  have h2 : ⌊(4665447738979123 : ℚ) / 2 ^ 30⌋ = 4345036 := by norm_num
  rw [h2]
  decide

/-- C1: for the compile-time-fixed variant `FpS`, `ToInt` returns the raw
value arithmetically right-shifted by `FracBits`, which is the floor of
`rawVal / 2^FracBits`, i.e. the floor of the represented value (rounding
toward negative infinity); concretely, constructing `fp16` or `fp32` from
the double literal `66.3` and converting to integer yields `66`, and
constructing from `-66.3` yields `-67`. -/
theorem C1_toInt_floor :
    (∀ (w ow f : ℕ) (v : FpS w ow f),
      v.toInt = Int.fdiv v.rawVal (2 ^ f) ∧ v.toInt = ⌊v.value⌋) ∧
    (FpS.ofRat double66p3 : fp16).toInt = 66 ∧
    (FpS.ofRat (-double66p3) : fp16).toInt = -67 ∧
    (FpS.ofRat double66p3 : fp32).toInt = 66 ∧
    (FpS.ofRat (-double66p3) : fp32).toInt = -67 := by
  refine ⟨fun w ow f v => ⟨FpS.shiftRight_eq_fdiv v.rawVal f, ?_⟩, ?_, ?_, ?_, ?_⟩
  · rw [FpS.toInt, FpS.shiftRight_eq_fdiv, FpS.value,
      Int.fdiv_eq_ediv _ (by positivity),
      show ((2 : ℚ) ^ f) = ((2 ^ f : ℕ) : ℚ) by push_cast; ring,
      Rat.floor_intCast_div_natCast]
    push_cast
    ring_nf
  · rw [FpS.toInt, ofRat_fp16_66p3]
    decide
  · rw [FpS.toInt, ofRat_fp16_neg66p3]
    decide
  · rw [FpS.toInt, ofRat_fp32_66p3]
    decide
  · rw [FpS.toInt, ofRat_fp32_neg66p3]
    decide

/-- C2: evaluation of unary `operator-` at the `fp16` value constructed from
integer `1` (raw value 256).  Because `operator-` is written
`return FpS(-rawVal_);`, it re-applies the integer constructor's left shift
by `numFracBits_`: the result's raw value is `wrap 16 (-256 * 256) = 0`
rather than `-256`, so negation does not negate the raw value and
`(-a) + a` does not represent zero. -/
theorem C2_unary_neg_rescales :
    (FpS.ofInt 1 : fp16).rawVal = 256 ∧
    (FpS.neg (FpS.ofInt 1 : fp16)).rawVal = 0 ∧
    (FpS.neg (FpS.ofInt 1 : fp16)).rawVal ≠
      wrap 16 (-(FpS.ofInt 1 : fp16).rawVal) ∧
    FpS.beq (FpS.add (FpS.neg (FpS.ofInt 1 : fp16)) (FpS.ofInt 1 : fp16))
      (FpS.ofInt 0) = false := by
  decide

/-- The `fp16` value holding the largest `int16_t` raw value, `32767`. -/
def fp16Max : fp16 :=
  ⟨32767, by decide, by decide⟩

/-- C3: `operator*=` sets the raw value to
`Base(((Overflow)raw * (Overflow)r.raw) >> FracBits)`; whenever the exact
product of the raw values is representable in the `ow`-bit `OverflowType`,
the result is `floor(rawValue(a) * rawValue(b) / 2^FracBits)` reduced into
the `w`-bit storage, matching an arbitrary-precision reference. -/
theorem C3_mul_widened (w ow f : ℕ) (how : 0 < ow) (a b : FpS w ow f)
    (hlo : -2 ^ (ow - 1) ≤ a.rawVal * b.rawVal)
    (hhi : a.rawVal * b.rawVal < 2 ^ (ow - 1)) :
    (FpS.mul a b).rawVal = wrap w (Int.fdiv (a.rawVal * b.rawVal) (2 ^ f)) := by
  show wrap w (Int.shiftRight (wrap ow (a.rawVal * b.rawVal)) f) = _
  rw [FpS.wrap_eq_self how hlo hhi, FpS.shiftRight_eq_fdiv]

/-- Witness for C3 at two `fp16` operands with the maximal raw value
`32767`: the 32-bit intermediate holds the product `1073676289` that a
16-bit multiply would have corrupted, and the result agrees with the
arbitrary-precision reference `wrap 16 (floor(32767·32767 / 2^8)) = -256`. -/
theorem C3_mul_widened_witness :
    (0 < 32 ∧ -2 ^ 31 ≤ fp16Max.rawVal * fp16Max.rawVal ∧
      fp16Max.rawVal * fp16Max.rawVal < 2 ^ 31) ∧
    (FpS.mul fp16Max fp16Max).rawVal
      = wrap 16 (Int.fdiv (fp16Max.rawVal * fp16Max.rawVal) (2 ^ 8)) ∧
    (FpS.mul fp16Max fp16Max).rawVal = -256 := by
  refine ⟨⟨by decide, by decide, by decide⟩, ?_, by decide⟩
  exact C3_mul_widened 16 32 8 (by decide) fp16Max fp16Max (by decide) (by decide)

/-- C4: under the precondition that the divisor's raw value is nonzero,
`operator/=` sets the raw value to
`Base(((Overflow)raw << FracBits) / (Overflow)r.raw)`: the dividend is
pre-scaled by `2^FracBits` in the widened type before truncating integer
division; when the pre-scaled dividend fits the `OverflowType`, the result
is exactly `Base((raw * 2^FracBits) tdiv r.raw)`, i.e. the quotient lands
back at scale `FracBits`.  No zero-divisor check is performed. -/
theorem C4_div_prescale (w ow f : ℕ) (a b : FpS w ow f) (_hb : b.rawVal ≠ 0) :
    (FpS.div a b).rawVal
      = wrap w (Int.tdiv (wrap ow (a.rawVal * 2 ^ f)) b.rawVal) ∧
    (0 < ow → -2 ^ (ow - 1) ≤ a.rawVal * 2 ^ f →
      a.rawVal * 2 ^ f < 2 ^ (ow - 1) →
      (FpS.div a b).rawVal = wrap w (Int.tdiv (a.rawVal * 2 ^ f) b.rawVal)) := by
  refine ⟨rfl, fun how hlo hhi => ?_⟩
  show wrap w (Int.tdiv (wrap ow (a.rawVal * 2 ^ f)) b.rawVal) = _
  rw [FpS.wrap_eq_self how hlo hhi]

/-- Witness for C4 at `fp16` values `10 / 2`: the divisor's raw value `512`
is nonzero, and the computed raw value `tdiv(2560 << 8, 512) = 1280` is the
raw value of `5`. -/
theorem C4_div_prescale_witness :
    (FpS.ofInt 2 : fp16).rawVal ≠ 0 ∧
    ((FpS.div (FpS.ofInt 10) (FpS.ofInt 2) : fp16).rawVal
        = wrap 16 (Int.tdiv (wrap 32 ((FpS.ofInt 10 : fp16).rawVal * 2 ^ 8))
            (FpS.ofInt 2 : fp16).rawVal) ∧
      (0 < 32 → -2 ^ 31 ≤ (FpS.ofInt 10 : fp16).rawVal * 2 ^ 8 →
        (FpS.ofInt 10 : fp16).rawVal * 2 ^ 8 < 2 ^ 31 →
        (FpS.div (FpS.ofInt 10) (FpS.ofInt 2) : fp16).rawVal
          = wrap 16 (Int.tdiv ((FpS.ofInt 10 : fp16).rawVal * 2 ^ 8)
              (FpS.ofInt 2 : fp16).rawVal))) ∧
    (FpS.div (FpS.ofInt 10) (FpS.ofInt 2) : fp16).rawVal
      = (FpS.ofInt 5 : fp16).rawVal := by
  refine ⟨by decide, C4_div_prescale 16 32 8 _ _ (by decide), by decide⟩

/-- C5: for every pair of values of one `FpS` instantiation (of positive
storage width), `(a + b) - b == a` holds raw-value-exactly, addition and
subtraction wrapping modulo `2^w`. -/
theorem C5_add_sub_cancel (w ow f : ℕ) (hw : 0 < w) (a b : FpS w ow f) :
    FpS.sub (FpS.add a b) b = a ∧
    FpS.beq (FpS.sub (FpS.add a b) b) a = true := by
  have hraw : (FpS.sub (FpS.add a b) b).rawVal = a.rawVal := by
    show wrap w (wrap w (a.rawVal + b.rawVal) - b.rawVal) = a.rawVal
    have h1 : wrap w (wrap w (a.rawVal + b.rawVal) - b.rawVal)
        = wrap w (a.rawVal + b.rawVal - b.rawVal) := by
      apply FpS.wrap_congr
      have h := FpS.dvd_wrap_sub w (a.rawVal + b.rawVal)
      convert h using 1
      ring
    rw [h1, add_sub_cancel_right]
    exact FpS.wrap_eq_self hw a.range_lo a.range_hi
  exact ⟨FpS.ext hraw, by simp [FpS.beq, hraw]⟩

/-- Witness for C5 at the `fp16` values `10` and `5`. -/
theorem C5_add_sub_cancel_witness :
    (0 < 16) ∧
    (FpS.sub (FpS.add (FpS.ofInt 10) (FpS.ofInt 5)) (FpS.ofInt 5) : fp16)
        = FpS.ofInt 10 ∧
    FpS.beq (FpS.sub (FpS.add (FpS.ofInt 10) (FpS.ofInt 5)) (FpS.ofInt 5)
        : fp16) (FpS.ofInt 10) = true := by
  refine ⟨by decide, ?_⟩
  exact C5_add_sub_cancel 16 32 8 (by decide) (FpS.ofInt 10) (FpS.ofInt 5)

/-- C6: for every integer whose scaled value `i << FracBits` is
representable in the `w`-bit `BaseType` (with `w ≤ 32`, the width of the
constructor's `int32_t` argument), constructing from `i` and converting
back with `ToInt` returns exactly `i`. -/
theorem C6_ofInt_toInt_roundtrip (w ow f : ℕ) (hw : 0 < w) (hw32 : w ≤ 32)
    (i : ℤ) (hlo : -2 ^ (w - 1) ≤ i * 2 ^ f) (hhi : i * 2 ^ f < 2 ^ (w - 1)) :
    (FpS.ofInt i : FpS w ow f).toInt = i := by
  have h31 : (2 : ℤ) ^ (w - 1) ≤ 2 ^ 31 :=
    pow_le_pow_right₀ (by norm_num) (by omega)
  have h32eq : ((2 : ℤ) ^ (32 - 1 : ℕ)) = 2 ^ 31 := by norm_num
  show Int.shiftRight (wrap w (wrap 32 (i * 2 ^ f))) f = i
  rw [FpS.wrap_eq_self (w := 32) (by norm_num) (by omega) (by omega),
    FpS.wrap_eq_self hw hlo hhi, FpS.shiftRight_eq_fdiv]
  exact Int.mul_fdiv_cancel i (by positivity)

/-- Witness for C6 at `i = 3` in `fp16`: `3 << 8 = 768` fits `int16_t`. -/
theorem C6_ofInt_toInt_roundtrip_witness :
    (0 < 16 ∧ (16 : ℕ) ≤ 32 ∧
      -2 ^ 15 ≤ (3 : ℤ) * 2 ^ 8 ∧ (3 : ℤ) * 2 ^ 8 < 2 ^ 15) ∧
    (FpS.ofInt 3 : fp16).toInt = 3 := by
  refine ⟨⟨by decide, by decide, by decide, by decide⟩, ?_⟩
  exact C6_ofInt_toInt_roundtrip 16 32 8 (by decide) (by decide) 3
    (by decide) (by decide)

/-- C7: for every value `a` whose widened intermediate `rawValue(a) * 2^f`
is representable in the `ow`-bit `OverflowType`, and with `one` the value
constructed from integer `1` (raw value `2^f`, which requires
`2^f < 2^(w-1)`): `a * one == a` and `a / one == a`, raw-value exactly. -/
theorem C7_mul_div_one (w ow f : ℕ) (hw : 0 < w) (hw32 : w ≤ 32)
    (how : 0 < ow) (hf : (2 : ℤ) ^ f < 2 ^ (w - 1)) (a : FpS w ow f)
    (hlo : -2 ^ (ow - 1) ≤ a.rawVal * 2 ^ f)
    (hhi : a.rawVal * 2 ^ f < 2 ^ (ow - 1)) :
    FpS.mul a (FpS.ofInt 1) = a ∧ FpS.div a (FpS.ofInt 1) = a := by
  have hfpos : (0 : ℤ) < 2 ^ f := by positivity
  have h31 : (2 : ℤ) ^ (w - 1) ≤ 2 ^ 31 :=
    pow_le_pow_right₀ (by norm_num) (by omega)
  have h32eq : ((2 : ℤ) ^ (32 - 1 : ℕ)) = 2 ^ 31 := by norm_num
  have hone : (FpS.ofInt 1 : FpS w ow f).rawVal = 2 ^ f := by
    show wrap w (wrap 32 ((1 : ℤ) * 2 ^ f)) = 2 ^ f
    rw [one_mul, FpS.wrap_eq_self (w := 32) (by norm_num) (by omega) (by omega)]
    exact FpS.wrap_eq_self hw (by omega) hf
  constructor
  · apply FpS.ext
    show wrap w (Int.shiftRight
      (wrap ow (a.rawVal * (FpS.ofInt 1 : FpS w ow f).rawVal)) f) = a.rawVal
    rw [hone, FpS.wrap_eq_self how hlo hhi, FpS.shiftRight_eq_fdiv,
      Int.mul_fdiv_cancel _ (by positivity),
      FpS.wrap_eq_self hw a.range_lo a.range_hi]
  · apply FpS.ext
    show wrap w (Int.tdiv (wrap ow (a.rawVal * 2 ^ f))
      (FpS.ofInt 1 : FpS w ow f).rawVal) = a.rawVal
    rw [hone, FpS.wrap_eq_self how hlo hhi,
      Int.mul_tdiv_cancel _ (by positivity),
      FpS.wrap_eq_self hw a.range_lo a.range_hi]

/-- Witness for C7 at the `fp16` value `3` (raw value `768`). -/
theorem C7_mul_div_one_witness :
    (0 < 16 ∧ (16 : ℕ) ≤ 32 ∧ 0 < 32 ∧ (2 : ℤ) ^ 8 < 2 ^ 15 ∧
      -2 ^ 31 ≤ (FpS.ofInt 3 : fp16).rawVal * 2 ^ 8 ∧
      (FpS.ofInt 3 : fp16).rawVal * 2 ^ 8 < 2 ^ 31) ∧
    (FpS.mul (FpS.ofInt 3) (FpS.ofInt 1) : fp16) = FpS.ofInt 3 ∧
    (FpS.div (FpS.ofInt 3) (FpS.ofInt 1) : fp16) = FpS.ofInt 3 := by
  refine ⟨⟨by decide, by decide, by decide, by decide, by decide, by decide⟩, ?_⟩
  exact C7_mul_div_one 16 32 8 (by decide) (by decide) (by decide) (by decide)
    (FpS.ofInt 3) (by decide) (by decide)

/-- C8: each comparison operator returns exactly the corresponding
comparison of the raw values; this ordering agrees with the order of the
represented rational values `rawVal / 2^FracBits`, and it is a total order
(total, antisymmetric — expressed as `a == b ↔ a <= b ∧ b <= a` — and
transitive, expressed as the equivalent implication-free disjunction
`a <= c ∨ b < a ∨ c < b`); `==` coincides with equality of values. -/
theorem C8_comparisons (w ow f : ℕ) (a b c : FpS w ow f) :
    (FpS.beq a b = true ↔ a.rawVal = b.rawVal) ∧
    (FpS.bne a b = true ↔ ¬a.rawVal = b.rawVal) ∧
    (FpS.blt a b = true ↔ a.rawVal < b.rawVal) ∧
    (FpS.bgt a b = true ↔ b.rawVal < a.rawVal) ∧
    (FpS.ble a b = true ↔ a.rawVal ≤ b.rawVal) ∧
    (FpS.bge a b = true ↔ b.rawVal ≤ a.rawVal) ∧
    (FpS.blt a b = true ↔ a.value < b.value) ∧
    (FpS.beq a b = true ↔ a.value = b.value) ∧
    (FpS.ble a b = true ∨ FpS.ble b a = true) ∧
    (FpS.beq a b = true ↔ (FpS.ble a b = true ∧ FpS.ble b a = true)) ∧
    (FpS.ble a c = true ∨ FpS.blt b a = true ∨ FpS.blt c b = true) ∧
    (FpS.beq a b = true ↔ a = b) := by
  have hpos : (0 : ℚ) < 2 ^ f := by positivity
  have hlt : ∀ x y : FpS w ow f, x.value < y.value ↔ x.rawVal < y.rawVal := by
    intro x y
    rw [FpS.value, FpS.value, div_lt_div_iff₀ hpos hpos, mul_lt_mul_right hpos]
    exact Int.cast_lt
  have heq : ∀ x y : FpS w ow f, x.value = y.value ↔ x.rawVal = y.rawVal := by
    intro x y
    constructor
    · intro h
      rw [FpS.value, FpS.value, div_eq_div_iff (by positivity) (by positivity)]
        at h
      exact_mod_cast mul_right_cancel₀ (b := (2 : ℚ) ^ f) (by positivity) h
    · intro h
      rw [FpS.value, FpS.value, h]
  refine ⟨by simp [FpS.beq], by simp [FpS.bne], by simp [FpS.blt],
    by simp [FpS.bgt], by simp [FpS.ble], by simp [FpS.bge],
    by simp [FpS.blt, hlt], by simp [FpS.beq, heq],
    by simp [FpS.ble]; omega, by simp [FpS.beq, FpS.ble]; omega,
    by simp [FpS.ble, FpS.blt]; omega, ?_⟩
  constructor
  · intro h
    exact FpS.ext (by simpa [FpS.beq] using h)
  · intro h
    simp [FpS.beq, h]

/-- C9: in the per-instance-scale variant `Fp32s`, `operator+=` performs no
addition when the left operand's fractional-bit count is less than or equal
to the right operand's (in particular when both scales are equal): it
leaves `rawVal` and `q` unchanged and returns `*this`. -/
theorem C9_addAssign_noop (l r : Fp32s) (h : l.q ≤ r.q) :
    Fp32s.addAssign l r = l := by
  unfold Fp32s.addAssign
  rw [if_neg (by omega)]

/-- Witness for C9 at two `Fp32s` values of equal scale `q = 8`:
`10.0 += 5.0` leaves the left operand's fields `(2560, 8)` unchanged. -/
theorem C9_addAssign_noop_witness :
    (Fp32s.mk 2560 8).q ≤ (Fp32s.mk 1280 8).q ∧
    Fp32s.addAssign (Fp32s.mk 2560 8) (Fp32s.mk 1280 8) = Fp32s.mk 2560 8 := by
  exact ⟨by decide, C9_addAssign_noop (Fp32s.mk 2560 8) (Fp32s.mk 1280 8)
    (by decide)⟩

/-- C10: the default constructor `Fp32s()` assigns neither `rawVal` nor
`q`: modelled as a function of the pre-existing contents of the object's
storage, it is the identity, so a default-constructed value can carry any
raw value and any scale — no representation invariant holds until both
public fields are set externally. -/
theorem C10_defaultCtor_indeterminate :
    (∀ m : Fp32s, Fp32s.defaultCtor m = m) ∧
    (∀ (rv : ℤ) (qv : ℕ), ∃ m : Fp32s,
      (Fp32s.defaultCtor m).rawVal = rv ∧ (Fp32s.defaultCtor m).q = qv) :=
  ⟨fun _ => rfl, fun rv qv => ⟨⟨rv, qv⟩, rfl, rfl⟩⟩

end MFixedPoint
